import Mathlib

/-!
Verification of the slice-selection core of `server/utils/intelligent-slice-selector.py`.

The per-slice decoding/classification/scoring stage (pydicom + numpy, spec §4.1-§4.3)
is a pure mapping `index → absent | (qualifies : Bool, score)` (spec §9, "Independent
per-slice computation"); we embed its outcome as `Option SliceInfo` per slice and embed
the scorer itself separately over rational-valued pixel lists (exact model of the
numpy arithmetic, which the source performs in binary floating point).

Python evaluates `int(n * c)` for the literal constants `c ∈ {0.0, 0.2, 0.4, 0.6, 0.8,
1.0, 0.7}` in IEEE-754 double precision.  We model this exactly: each constant is
replaced by the nearest double (`num / 2^dexp`), the product is rounded to a 53-bit
mantissa with round-to-nearest, ties-to-even (`rne`), and `int` truncates (floor, as all
values are non-negative).  This matters: `int(90 * 0.7) = 62` while `⌊0.7·90⌋ = 63`.
-/

namespace SliceSelector

/-- Outcome of the per-slice classification/scoring stage for one decodable slice:
the lung-classifier verdict (`get_lung_mask`) and the variance score
(`calculate_slice_variance`). An undecodable slice is `none` in the series list. -/
structure SliceInfo where
  qualifies : Bool
  score : ℚ
deriving DecidableEq

/-- A series: one entry per slice, `none` when `pydicom.dcmread` failed. -/
abbrev DicomInput := List (Option SliceInfo)

/-- Round `a / 2^s` to the nearest integer, ties to even (IEEE mantissa rounding). -/
def rne (a s : ℕ) : ℕ :=
  let q := a / 2 ^ s
  let r := a % 2 ^ s
  if 2 * r < 2 ^ s then q
  else if 2 ^ s < 2 * r then q + 1
  else if q % 2 = 0 then q else q + 1

/-- Fuel-driven binary logarithm (structural recursion so the kernel can evaluate it). -/
def log2fuel : ℕ → ℕ → ℕ
  | 0, _ => 0
  | fuel + 1, n => if 2 ≤ n then log2fuel fuel (n / 2) + 1 else 0

/-- `natLog2 n = ⌊log₂ n⌋` for `n ≥ 1` (and `0` at `0`). -/
def natLog2 (n : ℕ) : ℕ := log2fuel n n

/-- `pyIntMulFloat q num dexp` is the Python value `int(q * c)` where `c` is the IEEE
double `num / 2^dexp` and `q` is a nonnegative int exactly representable as a double.
The exact product `q*num/2^dexp` is rounded to 53 significant bits (nearest, ties even)
and then truncated. -/
def pyIntMulFloat (q num dexp : ℕ) : ℕ :=
  let a := q * num
  if a < 2 ^ 53 then a / 2 ^ dexp
  else
    let L := natLog2 a
    rne a (L - 52) * 2 ^ (L - 52) / 2 ^ dexp

/-- Python `int(q * 0.7)`: the IEEE double nearest 0.7 is 6305039478318694 / 2^53. -/
def pyIntMul07 (q : ℕ) : ℕ := pyIntMulFloat q 6305039478318694 53

/-- The five anatomical regions, in the source's dict insertion (= iteration) order. -/
inductive Region
  | APEX | UPPER | CENTRAL | LOWER | BASE
deriving DecidableEq

/-- Iteration order of `regions.items()` in the source. -/
def regionOrder : List Region := [.APEX, .UPPER, .CENTRAL, .LOWER, .BASE]

/-- `region_name in ['CENTRAL', 'LOWER', 'APEX']` (line 139 of the source). -/
def extraEligible : Region → Bool
  | .CENTRAL => true
  | .LOWER => true
  | .APEX => true
  | _ => false

/-- Lines 138-141: the quota taken by a region and the remaining extras.
`(region_quota, extra_slices')` given `quota_per_region` and current `extra_slices`. -/
def regionQuota (qpr extra : ℕ) (r : Region) : ℕ × ℕ :=
  if 0 < extra ∧ extraEligible r = true then (qpr + 1, extra - 1) else (qpr, extra)

/-- Lines 127-128: `(int(Q*start_frac), int(Q*end_frac))` for each region, with the
fractions 0.00/0.20/0.40/0.60/0.80/1.00 replaced by their exact IEEE doubles:
0.2 = 3602879701896397/2^54, 0.4 = 3602879701896397/2^53, 0.6 = 5404319552844595/2^53,
0.8 = 3602879701896397/2^52, 1.0 = 9007199254740992/2^53. -/
def regionBounds (Q : ℕ) : Region → ℕ × ℕ
  | .APEX => (pyIntMulFloat Q 0 54, pyIntMulFloat Q 3602879701896397 54)
  | .UPPER => (pyIntMulFloat Q 3602879701896397 54, pyIntMulFloat Q 3602879701896397 53)
  | .CENTRAL => (pyIntMulFloat Q 3602879701896397 53, pyIntMulFloat Q 5404319552844595 53)
  | .LOWER => (pyIntMulFloat Q 5404319552844595 53, pyIntMulFloat Q 3602879701896397 52)
  | .BASE => (pyIntMulFloat Q 3602879701896397 52, pyIntMulFloat Q 9007199254740992 53)

/-- Lines 75-91 (qualification loop): the list of `(index, variance)` pairs for
qualifying slices, in ascending index order (`lung_data`).  `i` is the index of the
first listed slice. -/
def lungData : DicomInput → ℕ → List (ℕ × ℚ)
  | [], _ => []
  | none :: rest, i => lungData rest (i + 1)
  | some info :: rest, i =>
      if info.qualifies then (i, info.score) :: lungData rest (i + 1)
      else lungData rest (i + 1)

/-- Line 95: `[i for i in range(len(dicom_slices)) if dicom_slices[i] is not None]`. -/
def validIndices : DicomInput → ℕ → List ℕ
  | [], _ => []
  | none :: rest, i => validIndices rest (i + 1)
  | some _ :: rest, i => i :: validIndices rest (i + 1)

/-- Stable descending insertion by score: the new element goes in front of the first
entry whose score is ≤ its own, so earlier elements stay first among equal scores —
the behaviour of Python's stable descending sort with `reverse=True` (see below). -/
def insertDesc (x : ℕ × ℚ) : List (ℕ × ℚ) → List (ℕ × ℚ)
  | [] => [x]
  | y :: ys => if y.2 ≤ x.2 then x :: y :: ys else y :: insertDesc x ys

/-- Line 145: `region_slices_with_var.sort(key=lambda x: x[1], reverse=True)` —
a stable sort, descending by score. -/
def sortDesc : List (ℕ × ℚ) → List (ℕ × ℚ)
  | [] => []
  | x :: xs => insertDesc x (sortDesc xs)

/-- Line 144: `[(idx, variance_scores.get(idx, 0)) for idx in region_slices]`. -/
def pairUp (rs : List ℕ) (scores : ℕ → ℚ) : List (ℕ × ℚ) := rs.map fun i => (i, scores i)

/-- Line 158: `[idx for idx, _ in region_slices_with_var[:high_var_count]]`. -/
def highVarSlices (rs : List ℕ) (scores : ℕ → ℚ) (hvc : ℕ) : List ℕ :=
  ((sortDesc (pairUp rs scores)).take hvc).map Prod.fst

/-- Line 161: `[idx for idx in region_slices if idx not in high_var_slices]`. -/
def remainingOf (rs high : List ℕ) : List ℕ := rs.filter fun i => decide (i ∉ high)

/-- Lines 162-166: uniform-stride sampling from the remaining candidates.
`remaining[i * step]` is modelled with `getD` (the in-bounds property is proved). -/
def uniformSlices (remaining : List ℕ) (uc : ℕ) : List ℕ :=
  if remaining.isEmpty ∨ uc = 0 then []
  else
    (List.range (min uc remaining.length)).map fun i =>
      remaining.getD (i * max 1 (remaining.length / uc)) 0

/-- Lines 147-168: per-region selection.  Whole region when it fits in the quota;
otherwise `int(quota*0.7)` top-variance slices unioned with the uniform sample,
deduplicated (`list(set(...))`). -/
def selectFromRegion (rs : List ℕ) (scores : ℕ → ℚ) (quota : ℕ) : List ℕ :=
  if rs.length ≤ quota then rs
  else
    let hvc := pyIntMul07 quota
    let high := highVarSlices rs scores hvc
    (high ++ uniformSlices (remainingOf rs high) (quota - hvc)).dedup

/-- Lines 125-171: the region loop.  Returns the concatenated selections (`.1`, the
`selected_indices` accumulator) and the `region_stats` entries (`.2`), threading
the `extra_slices` counter; empty regions are skipped before quota assignment. -/
def goRegions (lungIdx : List ℕ) (scores : ℕ → ℚ) (qpr : ℕ) :
    List Region → ℕ → List ℕ × List (Region × ℕ)
  | [], _ => ([], [])
  | r :: rest, extra =>
      let b := regionBounds lungIdx.length r
      let regionSlices := (lungIdx.drop b.1).take (b.2 - b.1)
      if regionSlices.isEmpty then
        let acc := goRegions lungIdx scores qpr rest extra
        (acc.1, (r, 0) :: acc.2)
      else
        let qe := regionQuota qpr extra r
        let sel := selectFromRegion regionSlices scores qe.1
        let acc := goRegions lungIdx scores qpr rest qe.2
        (sel ++ acc.1, (r, sel.length) :: acc.2)

/-- Strictly-sorted insertion, dropping duplicates: building block of
`sorted(list(set(...)))`. -/
def insertSorted (x : ℕ) : List ℕ → List ℕ
  | [] => [x]
  | y :: ys => if x < y then x :: y :: ys else if x = y then y :: ys else y :: insertSorted x ys

/-- Line 174: `sorted(list(set(selected_indices)))` — the strictly ascending list with
the same membership. -/
def sortedSet (l : List ℕ) : List ℕ := l.foldr insertSorted []

/-- Lines 42-185: `select_representative_slices`.  The three result paths: fallback
when no slice qualifies, passthrough when at most 10 qualify, and the 5-region quota
selection otherwise. -/
def select_representative_slices (slices : DicomInput) (target_count : ℕ) : List ℕ :=
  let lung_data := lungData slices 0
  if lung_data.isEmpty then (validIndices slices 0).take target_count
  else
    let lung_indices := lung_data.map Prod.fst
    if lung_indices.length ≤ 10 then lung_indices
    else
      sortedSet (goRegions lung_indices (fun i => (lung_data.lookup i).getD 0)
        (target_count / 5) regionOrder (target_count % 5)).1

/-- The `region_stats` side channel of the quota path (printed to stderr, lines
177-183), observable for verification. -/
def selection_stats (slices : DicomInput) (T : ℕ) : List (Region × ℕ) :=
  let lung_data := lungData slices 0
  (goRegions (lung_data.map Prod.fst) (fun i => (lung_data.lookup i).getD 0)
    (T / 5) regionOrder (T % 5)).2

/-- The mask of line 33: `-1000 < value < -200` (the scorer's narrow band). -/
def maskPred (v : ℚ) : Bool := decide ((-1000 : ℚ) < v ∧ v < -200)

/-- `np.var`: the mean of squared deviations from the mean (ddof = 0), modelled in
exact rational arithmetic. -/
def npVar (l : List ℚ) : ℚ :=
  let m := l.sum / l.length
  (l.map fun v => (v - m) ^ 2).sum / l.length

/-- Lines 28-40, `calculate_slice_variance`: 0 for an absent slice or when fewer than
100 pixels satisfy the narrow mask, otherwise the variance of the masked values.  The
pixel array is modelled as the (flattened) list of calibrated values; the function is
total, modelling the `try/except` contract that any failure maps to score 0. -/
def calculate_slice_variance : Option (List ℚ) → ℚ
  | none => 0
  | some hu =>
      let lung_values := hu.filter maskPred
      if lung_values.length < 100 then 0 else npVar lung_values

/-- The spec's wording of the hybrid split (§4.4 / claim C3): identical to
`selectFromRegion` except that the high-variance count is the exact
`floor(quota * 0.7) = 7*quota/10`, not Python's `int(quota * 0.7)`. -/
def selectFromRegionSpecFloor (rs : List ℕ) (scores : ℕ → ℚ) (quota : ℕ) : List ℕ :=
  if rs.length ≤ quota then rs
  else
    let high := highVarSlices rs scores (7 * quota / 10)
    (high ++ uniformSlices (remainingOf rs high) (quota - 7 * quota / 10)).dedup

/-- The JSON object printed by `main` (lines 187-214), with one `Option` per field so
that an absent key is observable. -/
structure OutJson where
  success : Option Bool
  error : Option String
  selectedIndices : Option (List ℕ)
  totalSlices : Option ℕ
  selectedCount : Option ℕ
deriving DecidableEq

/-- Lines 187-214, `main`: the input is either a decoded envelope (buffers already
taken through the per-slice stage, plus `targetCount`) or an exception carrying its
message (malformed stdin JSON or any internal error; `sys.exit(1)` raises
`SystemExit`, which `except Exception` does not catch, so the empty-buffers branch
exits directly with its own JSON).  Result: the printed JSON and the exit code. -/
def main_model : Except String (List (Option SliceInfo) × ℕ) → OutJson × ℕ
  | .error msg =>
      ({ success := some false, error := some msg, selectedIndices := none,
         totalSlices := none, selectedCount := none }, 1)
  | .ok (buffers, T) =>
      if buffers.isEmpty then
        ({ success := none, error := some "No DICOM buffers provided",
           selectedIndices := none, totalSlices := none, selectedCount := none }, 1)
      else
        let sel := select_representative_slices buffers T
        ({ success := some true, error := none, selectedIndices := some sel,
           totalSlices := some buffers.length, selectedCount := some sel.length }, 0)

/-- The concrete series used for the quota-path counterexamples: 210 decodable,
qualifying slices with equal scores (ties keep original order under the stable sort),
so each of the five bands holds 42 candidates and every band exceeds its quota. -/
def input210 : DicomInput := List.replicate 210 (some ⟨true, 0⟩)

/-! ### Arithmetic facts about the IEEE model -/

lemma rne_le (a s : ℕ) : rne a s ≤ a / 2 ^ s + 1 := by
  simp only [rne]
  split_ifs <;> omega

lemma two_pow_log2fuel_le : ∀ fuel n, n ≤ fuel → 0 < n → 2 ^ log2fuel fuel n ≤ n := by
  intro fuel
  induction fuel with
  | zero => intro n hn h0; omega
  | succ f ih =>
      intro n hn h0
      rw [log2fuel]
      split
      · next h2 =>
          have hrec := ih (n / 2) (by omega) (by omega)
          rw [pow_succ]
          have h1 := Nat.mul_le_mul_right 2 hrec
          have h3 : n / 2 * 2 ≤ n := Nat.div_mul_le_self n 2
          omega
      · simpa using h0

lemma two_pow_natLog2_le {n : ℕ} (h : 0 < n) : 2 ^ natLog2 n ≤ n :=
  two_pow_log2fuel_le n n le_rfl h

/-- The Python value `int(q * 0.7)` is strictly below `q` for positive `q`. -/
lemma pyIntMul07_lt {q : ℕ} (hq : 0 < q) : pyIntMul07 q < q := by
  have hc : (6305039478318694 : ℕ) + 2 < 2 ^ 53 := by norm_num
  simp only [pyIntMul07, pyIntMulFloat]
  split_ifs with hsmall
  · have : q * 6305039478318694 / 2 ^ 53 = 0 := Nat.div_eq_of_lt hsmall
    omega
  · push_neg at hsmall
    set a := q * 6305039478318694 with ha
    set L := natLog2 a with hLdef
    set s := L - 52 with hsdef
    have hL2 : 2 ^ L ≤ a := two_pow_natLog2_le (by omega)
    have hs52 : 2 ^ s * 2 ^ 52 ≤ a := by
      by_cases h52 : 52 ≤ L
      · rw [← pow_add]
        have hsum : s + 52 = L := by omega
        rw [hsum]; exact hL2
      · have hs0 : s = 0 := by omega
        rw [hs0]
        calc 2 ^ 0 * 2 ^ 52 = 2 ^ 52 := by norm_num
          _ ≤ 2 ^ 53 := by norm_num
          _ ≤ a := hsmall
    have h2s_le : 2 ^ s ≤ a / 2 ^ 52 := (Nat.le_div_iff_mul_le (by positivity)).mpr hs52
    have hdiv2q : a / 2 ^ 52 ≤ 2 * q := by
      have h1 : a ≤ q * 2 ^ 53 := by
        rw [ha]; exact Nat.mul_le_mul_left q (by norm_num)
      calc a / 2 ^ 52 ≤ q * 2 ^ 53 / 2 ^ 52 := Nat.div_le_div_right h1
        _ = 2 * q := by
            rw [show q * 2 ^ 53 = 2 * q * 2 ^ 52 by ring]
            exact Nat.mul_div_cancel _ (by positivity)
    have hval : rne a s * 2 ^ s ≤ a + 2 ^ s := by
      calc rne a s * 2 ^ s ≤ (a / 2 ^ s + 1) * 2 ^ s :=
            Nat.mul_le_mul_right _ (rne_le a s)
        _ = a / 2 ^ s * 2 ^ s + 2 ^ s := by ring
        _ ≤ a + 2 ^ s := by
            have := Nat.div_mul_le_self a (2 ^ s); omega
    have hlt : rne a s * 2 ^ s < q * 2 ^ 53 := by
      have h6 : a + 2 * q < q * 2 ^ 53 := by
        have heq : a + 2 * q = q * (6305039478318694 + 2) := by rw [ha]; ring
        rw [heq]
        exact (mul_lt_mul_left hq).mpr hc
      omega
    exact (Nat.div_lt_iff_lt_mul (by positivity)).mpr hlt

lemma pyIntMul07_zero : pyIntMul07 0 = 0 := by decide

/-- In-bounds property of the uniform-stride positions (lines 163-164). -/
lemma stride_lt {len uc i : ℕ} (huc : 0 < uc) (hi : i < min uc len) :
    i * max 1 (len / uc) < len := by
  rcases Nat.lt_or_ge len uc with h | h
  · have hdiv : len / uc = 0 := Nat.div_eq_of_lt h
    have hi' : i < len := lt_of_lt_of_le hi (min_le_right _ _)
    simpa [hdiv] using hi'
  · have h1 : 1 ≤ len / uc := (Nat.one_le_div_iff huc).mpr h
    have hmax : max 1 (len / uc) = len / uc := max_eq_right h1
    have hi' : i < uc := lt_of_lt_of_le hi (min_le_left _ _)
    rw [hmax]
    calc i * (len / uc) ≤ (uc - 1) * (len / uc) :=
          Nat.mul_le_mul_right _ (by omega)
      _ = uc * (len / uc) - 1 * (len / uc) := by rw [← Nat.sub_mul]
      _ ≤ len - len / uc := by
          have h4 : len / uc * uc ≤ len := Nat.div_mul_le_self len uc
          have h5 : uc * (len / uc) = len / uc * uc := Nat.mul_comm _ _
          omega
      _ < len := by omega

/-! ### The stable descending sort is a permutation -/

lemma insertDesc_perm (x : ℕ × ℚ) (l : List (ℕ × ℚ)) : (insertDesc x l).Perm (x :: l) := by
  induction l with
  | nil => simp [insertDesc]
  | cons y ys ih =>
      rw [insertDesc]
      split
      · exact List.Perm.refl _
      · exact (List.Perm.cons y ih).trans (List.Perm.swap x y ys)

lemma sortDesc_perm (l : List (ℕ × ℚ)) : (sortDesc l).Perm l := by
  induction l with
  | nil => simp [sortDesc]
  | cons x xs ih => exact (insertDesc_perm x (sortDesc xs)).trans (List.Perm.cons x ih)

lemma pairUp_map_fst (rs : List ℕ) (scores : ℕ → ℚ) :
    (pairUp rs scores).map Prod.fst = rs := by
  simp only [pairUp, List.map_map]
  exact List.map_id rs

lemma sortDesc_pairUp_fst_perm (rs : List ℕ) (scores : ℕ → ℚ) :
    ((sortDesc (pairUp rs scores)).map Prod.fst).Perm rs := by
  have h := (sortDesc_perm (pairUp rs scores)).map Prod.fst
  rwa [pairUp_map_fst] at h

/-! ### The high-variance selection -/

lemma highVarSlices_subset {rs : List ℕ} {scores : ℕ → ℚ} {k : ℕ} :
    ∀ x ∈ highVarSlices rs scores k, x ∈ rs := by
  intro x hx
  simp only [highVarSlices] at hx
  have h1 : x ∈ (sortDesc (pairUp rs scores)).map Prod.fst :=
    List.Sublist.subset (List.Sublist.map _ (List.take_sublist _ _)) hx
  exact (sortDesc_pairUp_fst_perm rs scores).subset h1

lemma highVarSlices_nodup {rs : List ℕ} (scores : ℕ → ℚ) (k : ℕ) (h : rs.Nodup) :
    (highVarSlices rs scores k).Nodup := by
  have hnd : ((sortDesc (pairUp rs scores)).map Prod.fst).Nodup :=
    (sortDesc_pairUp_fst_perm rs scores).nodup_iff.mpr h
  exact List.Nodup.sublist (List.Sublist.map _ (List.take_sublist _ _)) hnd

lemma highVarSlices_length {rs : List ℕ} (scores : ℕ → ℚ) {k : ℕ} (h : k ≤ rs.length) :
    (highVarSlices rs scores k).length = k := by
  simp only [highVarSlices, List.length_map, List.length_take]
  have hlen : (sortDesc (pairUp rs scores)).length = rs.length := by
    rw [(sortDesc_perm _).length_eq]; simp [pairUp]
  rw [hlen]; omega

/-! ### The remaining (non-high) candidates -/

lemma remainingOf_subset {rs high : List ℕ} : ∀ x ∈ remainingOf rs high, x ∈ rs :=
  fun _ hx => (List.mem_filter.mp hx).1

lemma remainingOf_not_mem {rs high : List ℕ} : ∀ x ∈ remainingOf rs high, x ∉ high := by
  intro x hx
  simpa using (List.mem_filter.mp hx).2

lemma remainingOf_nodup {rs : List ℕ} (high : List ℕ) (h : rs.Nodup) :
    (remainingOf rs high).Nodup := h.filter _

lemma remainingOf_length {rs high : List ℕ} (hrs : rs.Nodup) (hh : high.Nodup)
    (hsub : ∀ x ∈ high, x ∈ rs) :
    (remainingOf rs high).length = rs.length - high.length := by
  have hsplit := List.length_eq_length_filter_add (l := rs) (fun i => decide (i ∉ high))
  have hmem : rs.filter (fun i => !(decide (i ∉ high))) =
      rs.filter (fun i => decide (i ∈ high)) := by
    congr 1
    funext i
    simp [decide_not]
  have hperm : (rs.filter (fun i => decide (i ∈ high))).Perm high := by
    rw [List.perm_ext_iff_of_nodup (hrs.filter _) hh]
    intro a
    simp only [List.mem_filter, decide_eq_true_eq]
    exact ⟨fun h => h.2, fun h => ⟨hsub a h, h⟩⟩
  have hlen2 : (rs.filter (fun i => !(decide (i ∉ high)))).length = high.length := by
    rw [hmem]; exact hperm.length_eq
  simp only [remainingOf]
  omega

/-! ### The uniform-stride sample -/

lemma uniformSlices_mem {rem : List ℕ} {uc : ℕ} :
    ∀ x ∈ uniformSlices rem uc, x ∈ rem := by
  intro x hx
  simp only [uniformSlices] at hx
  split at hx
  · simp at hx
  · next hguard =>
      have huc : 0 < uc := by
        rcases Nat.eq_zero_or_pos uc with h | h
        · exact absurd (Or.inr h) hguard
        · exact h
      simp only [List.mem_map, List.mem_range] at hx
      obtain ⟨i, hi, heq⟩ := hx
      have hb : i * max 1 (rem.length / uc) < rem.length := stride_lt huc hi
      rw [← heq, List.getD_eq_getElem _ _ hb]
      exact List.getElem_mem hb

lemma uniformSlices_length {rem : List ℕ} {uc : ℕ} (hne : rem ≠ []) (huc : 0 < uc) :
    (uniformSlices rem uc).length = min uc rem.length := by
  have h1 : rem.isEmpty = false := by simpa [List.isEmpty_iff] using hne
  have h2 : ¬ uc = 0 := by omega
  simp [uniformSlices, h1, h2]

lemma uniformSlices_nodup {rem : List ℕ} (uc : ℕ) (hnd : rem.Nodup) :
    (uniformSlices rem uc).Nodup := by
  simp only [uniformSlices]
  split
  · exact List.nodup_nil
  · next hguard =>
      have huc : 0 < uc := by
        rcases Nat.eq_zero_or_pos uc with h | h
        · exact absurd (Or.inr h) hguard
        · exact h
      apply List.Nodup.map_on _ (List.nodup_range _)
      intro i hi j hj heq
      rw [List.mem_range] at hi hj
      have hbi : i * max 1 (rem.length / uc) < rem.length := stride_lt huc hi
      have hbj : j * max 1 (rem.length / uc) < rem.length := stride_lt huc hj
      rw [List.getD_eq_getElem _ _ hbi, List.getD_eq_getElem _ _ hbj] at heq
      have := (List.Nodup.getElem_inj_iff hnd).mp heq
      have hstep : 0 < max 1 (rem.length / uc) := by positivity
      exact Nat.eq_of_mul_eq_mul_right hstep this

/-! ### Per-region selection -/

lemma selectFromRegion_subset {rs : List ℕ} {scores : ℕ → ℚ} {quota : ℕ} :
    ∀ x ∈ selectFromRegion rs scores quota, x ∈ rs := by
  intro x hx
  simp only [selectFromRegion] at hx
  split at hx
  · exact hx
  · rw [List.mem_dedup] at hx
    rcases List.mem_append.mp hx with h | h
    · exact highVarSlices_subset x h
    · exact remainingOf_subset x (uniformSlices_mem x h)

/-! ### `sorted(list(set(...)))` -/

lemma mem_insertSorted {x y : ℕ} {l : List ℕ} :
    y ∈ insertSorted x l ↔ y = x ∨ y ∈ l := by
  induction l with
  | nil => simp [insertSorted]
  | cons z zs ih =>
      simp only [insertSorted]
      split_ifs with h1 h2
      · simp only [List.mem_cons]
      · subst h2; simp only [List.mem_cons]; tauto
      · simp only [List.mem_cons, ih]; tauto

lemma insertSorted_sorted {x : ℕ} {l : List ℕ} (h : l.Sorted (· < ·)) :
    (insertSorted x l).Sorted (· < ·) := by
  induction l with
  | nil => simp [insertSorted]
  | cons z zs ih =>
      rw [List.sorted_cons] at h
      obtain ⟨hz, hzs⟩ := h
      simp only [insertSorted]
      split_ifs with h1 h2
      · rw [List.sorted_cons]
        refine ⟨fun b hb => ?_, by rw [List.sorted_cons]; exact ⟨hz, hzs⟩⟩
        rcases List.mem_cons.mp hb with rfl | hb
        · exact h1
        · exact lt_trans h1 (hz b hb)
      · rw [List.sorted_cons]; exact ⟨hz, hzs⟩
      · rw [List.sorted_cons]
        refine ⟨fun b hb => ?_, ih hzs⟩
        rcases mem_insertSorted.mp hb with rfl | hb
        · omega
        · exact hz b hb

lemma sortedSet_sorted (l : List ℕ) : (sortedSet l).Sorted (· < ·) := by
  induction l with
  | nil => simp [sortedSet]
  | cons x xs ih => exact insertSorted_sorted ih

lemma mem_sortedSet {y : ℕ} {l : List ℕ} : y ∈ sortedSet l ↔ y ∈ l := by
  induction l with
  | nil => simp [sortedSet]
  | cons x xs ih =>
      show y ∈ insertSorted x (sortedSet xs) ↔ _
      rw [mem_insertSorted, ih, List.mem_cons]

lemma sortedSet_nodup (l : List ℕ) : (sortedSet l).Nodup :=
  (sortedSet_sorted l).nodup

/-! ### The qualification loop -/

lemma lungData_bounds (l : DicomInput) :
    ∀ (i : ℕ) (p : ℕ × ℚ), p ∈ lungData l i → i ≤ p.1 ∧ p.1 < i + l.length := by
  induction l with
  | nil => intro i p hp; simp [lungData] at hp
  | cons s rest ih =>
      intro i p hp
      have hlen : (s :: rest).length = rest.length + 1 := List.length_cons s rest
      cases s with
      | none =>
          simp only [lungData] at hp
          have := ih (i + 1) p hp
          omega
      | some info =>
          simp only [lungData] at hp
          by_cases hq : info.qualifies
          · rw [if_pos hq] at hp
            rcases List.mem_cons.mp hp with rfl | hp
            · simp
            · have := ih (i + 1) p hp; omega
          · rw [if_neg hq] at hp
            have := ih (i + 1) p hp; omega

lemma lungData_fst_sorted (l : DicomInput) :
    ∀ i, ((lungData l i).map Prod.fst).Sorted (· < ·) := by
  induction l with
  | nil => intro i; simp [lungData]
  | cons s rest ih =>
      intro i
      cases s with
      | none => simpa only [lungData] using ih (i + 1)
      | some info =>
          simp only [lungData]
          by_cases hq : info.qualifies
          · rw [if_pos hq]
            simp only [List.map_cons]
            rw [List.sorted_cons]
            refine ⟨fun b hb => ?_, ih (i + 1)⟩
            simp only [List.mem_map] at hb
            obtain ⟨p, hp, rfl⟩ := hb
            have := (lungData_bounds rest (i + 1) p hp).1
            omega
          · rw [if_neg hq]; exact ih (i + 1)

lemma lungData_eq_nil (l : DicomInput) :
    (∀ info : SliceInfo, some info ∈ l → info.qualifies = false) →
    ∀ i, lungData l i = [] := by
  induction l with
  | nil => intro _ i; rfl
  | cons s rest ih =>
      intro h i
      cases s with
      | none =>
          simp only [lungData]
          exact ih (fun info hm => h info (List.mem_cons_of_mem _ hm)) (i + 1)
      | some info =>
          have hq : info.qualifies = false := h info (List.mem_cons_self _ _)
          simp only [lungData, hq]
          simp only [Bool.false_eq_true, if_false]
          exact ih (fun inf hm => h inf (List.mem_cons_of_mem _ hm)) (i + 1)

lemma validIndices_bounds (l : DicomInput) :
    ∀ (i : ℕ), ∀ x ∈ validIndices l i, i ≤ x ∧ x < i + l.length := by
  induction l with
  | nil => intro i x hx; simp [validIndices] at hx
  | cons s rest ih =>
      intro i x hx
      have hlen : (s :: rest).length = rest.length + 1 := List.length_cons s rest
      cases s with
      | none =>
          simp only [validIndices] at hx
          have := ih (i + 1) x hx
          omega
      | some info =>
          simp only [validIndices] at hx
          rcases List.mem_cons.mp hx with rfl | hx
          · omega
          · have := ih (i + 1) x hx; omega

lemma validIndices_sorted (l : DicomInput) :
    ∀ i, (validIndices l i).Sorted (· < ·) := by
  induction l with
  | nil => intro i; simp [validIndices]
  | cons s rest ih =>
      intro i
      cases s with
      | none => simpa only [validIndices] using ih (i + 1)
      | some info =>
          simp only [validIndices]
          rw [List.sorted_cons]
          refine ⟨fun b hb => ?_, ih (i + 1)⟩
          have := (validIndices_bounds rest (i + 1) b hb).1
          omega

/-! ### The region loop -/

lemma goRegions_fst_subset (li : List ℕ) (scores : ℕ → ℚ) (qpr : ℕ) :
    ∀ (rgs : List Region) (extra : ℕ), ∀ x ∈ (goRegions li scores qpr rgs extra).1, x ∈ li := by
  intro rgs
  induction rgs with
  | nil => intro extra x hx; simp [goRegions] at hx
  | cons r rest ih =>
      intro extra x hx
      simp only [goRegions] at hx
      split at hx
      · exact ih extra x hx
      · rcases List.mem_append.mp hx with h | h
        · have h1 := selectFromRegion_subset x h
          have h2 : List.Sublist (li.drop (regionBounds li.length r).1) li :=
            List.drop_sublist _ _
          have h3 :=
            List.take_sublist ((regionBounds li.length r).2 - (regionBounds li.length r).1)
              (li.drop (regionBounds li.length r).1)
          exact h2.subset (h3.subset h1)
        · exact ih _ x h

/-! ### The hybrid split fills the quota exactly -/

lemma region_hybrid_facts (rs : List ℕ) (scores : ℕ → ℚ) (quota : ℕ)
    (hnd : rs.Nodup) (hlt : quota < rs.length) :
    (uniformSlices (remainingOf rs (highVarSlices rs scores (pyIntMul07 quota)))
        (quota - pyIntMul07 quota)).length = quota - pyIntMul07 quota
  ∧ (∀ x ∈ uniformSlices (remainingOf rs (highVarSlices rs scores (pyIntMul07 quota)))
        (quota - pyIntMul07 quota), x ∉ highVarSlices rs scores (pyIntMul07 quota))
  ∧ (selectFromRegion rs scores quota).length = quota := by
  rcases Nat.eq_zero_or_pos quota with hq0 | hqpos
  · subst hq0
    refine ⟨?_, ?_, ?_⟩
    · simp [uniformSlices]
    · intro x hx; simp [uniformSlices] at hx
    · simp only [selectFromRegion]
      rw [if_neg (by omega)]
      simp [pyIntMul07_zero, highVarSlices, uniformSlices]
  · have hhvt : pyIntMul07 quota < quota := pyIntMul07_lt hqpos
    have hsubset : ∀ x ∈ highVarSlices rs scores (pyIntMul07 quota), x ∈ rs :=
      fun x hx => highVarSlices_subset x hx
    have hhl : (highVarSlices rs scores (pyIntMul07 quota)).length = pyIntMul07 quota :=
      highVarSlices_length scores (by omega)
    have hhn := highVarSlices_nodup scores (pyIntMul07 quota) hnd
    have hreml : (remainingOf rs (highVarSlices rs scores (pyIntMul07 quota))).length
        = rs.length - pyIntMul07 quota := by
      rw [remainingOf_length hnd hhn hsubset, hhl]
    have hremn := remainingOf_nodup (highVarSlices rs scores (pyIntMul07 quota)) hnd
    have hucpos : 0 < quota - pyIntMul07 quota := by omega
    have hrem_ne : remainingOf rs (highVarSlices rs scores (pyIntMul07 quota)) ≠ [] :=
      List.ne_nil_of_length_pos (by omega)
    have hul : (uniformSlices (remainingOf rs (highVarSlices rs scores (pyIntMul07 quota)))
        (quota - pyIntMul07 quota)).length = quota - pyIntMul07 quota := by
      rw [uniformSlices_length hrem_ne hucpos, hreml]
      omega
    have hdisj : ∀ x ∈ uniformSlices (remainingOf rs (highVarSlices rs scores
        (pyIntMul07 quota))) (quota - pyIntMul07 quota),
        x ∉ highVarSlices rs scores (pyIntMul07 quota) := fun x hx =>
      remainingOf_not_mem x (uniformSlices_mem x hx)
    refine ⟨hul, hdisj, ?_⟩
    simp only [selectFromRegion]
    rw [if_neg (by omega)]
    have hnodup : (highVarSlices rs scores (pyIntMul07 quota) ++
        uniformSlices (remainingOf rs (highVarSlices rs scores (pyIntMul07 quota)))
          (quota - pyIntMul07 quota)).Nodup := by
      refine List.Nodup.append hhn (uniformSlices_nodup _ hremn) ?_
      intro a ha hb
      exact (hdisj a hb) ha
    rw [List.dedup_eq_self.mpr hnodup, List.length_append, hhl, hul]
    omega

/-! ## Claim theorems -/

/-- Claim C2: when the lung classifier returns false for every decodable slice (so no
slice qualifies), `select_representative_slices` returns the first `target_count`
indices among all non-absent slices, in their original ascending order, bypassing the
region/quota logic. -/
theorem claim_C2_fallback_first_valid (slices : DicomInput) (T : ℕ)
    (h : ∀ info : SliceInfo, some info ∈ slices → info.qualifies = false) :
    select_representative_slices slices T = (validIndices slices 0).take T
  ∧ ((validIndices slices 0).take T).Sorted (· < ·) := by
  have hnil : lungData slices 0 = [] := lungData_eq_nil slices h 0
  constructor
  · simp [select_representative_slices, hnil]
  · exact List.Pairwise.sublist (List.take_sublist _ _) (validIndices_sorted slices 0)

/-- Witness for C2 at a concrete three-slice series (two decodable non-qualifying
slices around one undecodable slice): the first 2 valid indices are returned. -/
theorem claim_C2_witness :
    select_representative_slices [some ⟨false, 0⟩, none, some ⟨false, 3⟩] 2 = [0, 2] := by
  have h := claim_C2_fallback_first_valid [some ⟨false, 0⟩, none, some ⟨false, 3⟩] 2 (by
    intro info hm
    simp only [List.mem_cons] at hm
    rcases hm with h | h | h
    · simp at h; subst h; rfl
    · simp at h
    · simp at h; subst h; rfl)
  rw [h.1]
  decide

/-- Claim C4: the pathology score is 0 when the slice is absent or fewer than 100
pixels satisfy the narrow mask `-1000 < v < -200`, and otherwise equals the variance
(mean squared deviation, as computed by `np.var`) of the masked pixel values.  The
scorer is a total function — the model of "never raises; internal failures map
to 0". -/
theorem claim_C4_variance_scorer (hu : Option (List ℚ)) :
    (hu = none → calculate_slice_variance hu = 0)
  ∧ (∀ l, hu = some l → (l.filter maskPred).length < 100 →
      calculate_slice_variance hu = 0)
  ∧ (∀ l, hu = some l → 100 ≤ (l.filter maskPred).length →
      calculate_slice_variance hu = npVar (l.filter maskPred)) := by
  refine ⟨?_, ?_, ?_⟩
  · rintro rfl; rfl
  · rintro l rfl hlen
    simp only [calculate_slice_variance]
    rw [if_pos hlen]
  · rintro l rfl hlen
    simp only [calculate_slice_variance]
    rw [if_neg (by omega)]

/-- Witness for C4: 100 in-mask pixels of value −500 get scored with the variance of
the masked values (here 0, as the values are constant). -/
theorem claim_C4_witness :
    calculate_slice_variance (some (List.replicate 100 (-500 : ℚ)))
      = npVar ((List.replicate 100 (-500 : ℚ)).filter maskPred) :=
  (claim_C4_variance_scorer (some (List.replicate 100 (-500 : ℚ)))).2.2 _ rfl (by decide)

/-- Claim C5: on every input and every path (fallback, passthrough, quota), the
result is strictly ascending, duplicate-free, and every element is a valid index
into the input series. -/
theorem claim_C5_sorted_nodup_valid (slices : DicomInput) (T : ℕ) :
    (select_representative_slices slices T).Sorted (· < ·)
  ∧ (select_representative_slices slices T).Nodup
  ∧ ∀ x ∈ select_representative_slices slices T, x < slices.length := by
  simp only [select_representative_slices]
  split_ifs with hemp hsmall
  · refine ⟨?_, ?_, ?_⟩
    · exact List.Pairwise.sublist (List.take_sublist _ _) (validIndices_sorted slices 0)
    · exact List.Nodup.sublist (List.take_sublist _ _) (validIndices_sorted slices 0).nodup
    · intro x hx
      have hx' : x ∈ validIndices slices 0 := (List.take_subset _ _) hx
      have := (validIndices_bounds slices 0 x hx').2
      omega
  · refine ⟨lungData_fst_sorted slices 0, (lungData_fst_sorted slices 0).nodup, ?_⟩
    intro x hx
    simp only [List.mem_map] at hx
    obtain ⟨p, hp, rfl⟩ := hx
    have := (lungData_bounds slices 0 p hp).2
    omega
  · refine ⟨sortedSet_sorted _, sortedSet_nodup _, ?_⟩
    intro x hx
    have hx2 := goRegions_fst_subset _ _ _ regionOrder _ x (mem_sortedSet.mp hx)
    simp only [List.mem_map] at hx2
    obtain ⟨p, hp, rfl⟩ := hx2
    have := (lungData_bounds slices 0 p hp).2
    omega

/-- Witness for C5: on a one-slice qualifying series, index 0 is selected and is a
valid index. -/
theorem claim_C5_witness : (0 : ℕ) < ([some ⟨true, 0⟩] : DicomInput).length :=
  (claim_C5_sorted_nodup_valid [some ⟨true, 0⟩] 5).2.2 0 (by decide)

/-- Claim C6: the number of selected indices never exceeds
`max targetCount qualifying_count`, where `qualifying_count` is the number of slices
the lung classifier accepted. -/
theorem claim_C6_length_bound (slices : DicomInput) (T : ℕ) :
    (select_representative_slices slices T).length ≤ max T (lungData slices 0).length := by
  simp only [select_representative_slices]
  split_ifs with hemp hsmall
  · calc ((validIndices slices 0).take T).length ≤ T := by
          rw [List.length_take]; omega
      _ ≤ max T (lungData slices 0).length := le_max_left _ _
  · calc ((lungData slices 0).map Prod.fst).length = (lungData slices 0).length :=
          List.length_map _ _
      _ ≤ max T (lungData slices 0).length := le_max_right _ _
  · have hsub : ∀ x ∈ sortedSet (goRegions ((lungData slices 0).map Prod.fst)
        (fun i => ((lungData slices 0).lookup i).getD 0) (T / 5) regionOrder (T % 5)).1,
        x ∈ (lungData slices 0).map Prod.fst := by
      intro x hx
      exact goRegions_fst_subset _ _ _ _ _ x (mem_sortedSet.mp hx)
    have hsp := (sortedSet_nodup _).subperm hsub
    calc (sortedSet (goRegions ((lungData slices 0).map Prod.fst)
          (fun i => ((lungData slices 0).lookup i).getD 0) (T / 5) regionOrder
          (T % 5)).1).length
        ≤ ((lungData slices 0).map Prod.fst).length := hsp.length_le
      _ = (lungData slices 0).length := List.length_map _ _
      _ ≤ max T (lungData slices 0).length := le_max_right _ _

/-- Claim C7: a non-empty qualifying list of at most 10 entries is returned
unchanged, whatever the target count. -/
theorem claim_C7_small_passthrough (slices : DicomInput) (T : ℕ)
    (hne : lungData slices 0 ≠ []) (hle : (lungData slices 0).length ≤ 10) :
    select_representative_slices slices T = (lungData slices 0).map Prod.fst := by
  simp only [select_representative_slices]
  rw [if_neg (by simpa [List.isEmpty_iff] using hne), if_pos (by simpa using hle)]

/-- Witness for C7 at a one-qualifying-slice series with target count 0. -/
theorem claim_C7_witness :
    select_representative_slices [some ⟨true, 5⟩] 0 = [0] := by
  have h := claim_C7_small_passthrough [some ⟨true, 5⟩] 0 (by decide) (by decide)
  rw [h]
  decide

/-- Claim C10: every position `i * step` accessed by the uniform-stride sampling,
with `step = max 1 (len / uc)` and `i < min uc len`, is strictly below the length of
the remaining list, so `remaining[i * step]` never goes out of bounds and the sample
draws only members of the remaining list. -/
theorem claim_C10_stride_in_bounds (remaining : List ℕ) (uc : ℕ)
    (hne : remaining ≠ []) (huc : 0 < uc) :
    (∀ i < min uc remaining.length,
        i * max 1 (remaining.length / uc) < remaining.length)
  ∧ ∀ x ∈ uniformSlices remaining uc, x ∈ remaining :=
  ⟨fun _ hi => stride_lt huc hi, fun x hx => uniformSlices_mem x hx⟩

/-- Witness for C10 at `remaining = [3, 1, 4]`, `uc = 2`. -/
theorem claim_C10_witness :
    (0 * max 1 ([3, 1, 4].length / 2) < [3, 1, 4].length)
  ∧ ∀ x ∈ uniformSlices [3, 1, 4] 2, x ∈ [3, 1, 4] :=
  ⟨(claim_C10_stride_in_bounds [3, 1, 4] 2 (by decide) (by decide)).1 0 (by decide),
   (claim_C10_stride_in_bounds [3, 1, 4] 2 (by decide) (by decide)).2⟩

/-- Counterexample to claim C1: for `targetCount = 202` the claimed per-region quotas
41, 40, 41, 41, 40 (APEX, UPPER, CENTRAL, LOWER, BASE) are wrong — they sum to 203.
On a series of 210 qualifying slices (each band holds 42 > quota candidates, so each
band's selected count equals its quota), the recorded stats are 41, 40, 41, 40, 40:
the remainder `202 % 5 = 2` is exhausted by APEX and CENTRAL, and LOWER gets no
extra unit. -/
theorem claim_C1_counterexample :
    selection_stats input210 202 ≠
      [(Region.APEX, 41), (Region.UPPER, 40), (Region.CENTRAL, 41),
       (Region.LOWER, 41), (Region.BASE, 40)]
  ∧ selection_stats input210 202 =
      [(Region.APEX, 41), (Region.UPPER, 40), (Region.CENTRAL, 41),
       (Region.LOWER, 40), (Region.BASE, 40)] := by
  set_option maxRecDepth 100000 in
  have h : selection_stats input210 202 =
      [(Region.APEX, 41), (Region.UPPER, 40), (Region.CENTRAL, 41),
       (Region.LOWER, 40), (Region.BASE, 40)] := by decide
  exact ⟨by rw [h]; decide, h⟩

/-- Claim C1, amended: the base quota per region is `T // 5`; the remainder `T % 5`
is handed out one unit at a time to the eligible regions APEX, CENTRAL, LOWER in
evaluation order while it lasts; UPPER and BASE never take a unit.  For
`targetCount = 202` the quotas are 41, 40, 41, 40, 40 (the remainder 2 is exhausted
before LOWER), and the full selection on the 210-slice series has exactly
202 = 41+40+41+40+40 indices. -/
theorem claim_C1_amended :
    (∀ qpr extra : ℕ, (regionQuota qpr extra Region.UPPER).1 = qpr
        ∧ (regionQuota qpr extra Region.BASE).1 = qpr)
  ∧ (∀ qpr extra : ℕ, ∀ r : Region, 0 < extra → extraEligible r = true →
        regionQuota qpr extra r = (qpr + 1, extra - 1))
  ∧ selection_stats input210 202 =
      [(Region.APEX, 41), (Region.UPPER, 40), (Region.CENTRAL, 41),
       (Region.LOWER, 40), (Region.BASE, 40)]
  ∧ (select_representative_slices input210 202).length = 202 := by
  refine ⟨?_, ?_, ?_, ?_⟩
  · intro qpr extra
    constructor <;> simp [regionQuota, extraEligible]
  · intro qpr extra r hpos helig
    simp [regionQuota, hpos, helig]
  · set_option maxRecDepth 100000 in decide
  · set_option maxRecDepth 100000 in decide

/-- Witness for C1 (amended): UPPER takes no remainder unit at `T = 202`
(`qpr = 40`, `extra = 2`), while the eligible APEX takes one. -/
theorem claim_C1_witness :
    (regionQuota 40 2 Region.UPPER).1 = 40 ∧ regionQuota 40 2 Region.APEX = (41, 1) :=
  ⟨(claim_C1_amended.1 40 2).1, claim_C1_amended.2.1 40 2 Region.APEX (by decide) rfl⟩

/-- Counterexample to claim C3: the high-variance count is Python's
`int(quota * 0.7)`, not `floor(quota * 0.7)`.  At `quota = 90` the IEEE double
product `90 * 0.7` is `62.99999999999999`, so the code takes 62 high-variance
candidates where the claim's formula takes `⌊63.0⌋ = 63`; on a 91-candidate region
with strictly increasing scores the two selections differ. -/
theorem claim_C3_counterexample :
    selectFromRegion (List.range 91) (fun i => (i : ℚ)) 90 ≠
      selectFromRegionSpecFloor (List.range 91) (fun i => (i : ℚ)) 90 := by
  set_option maxRecDepth 100000 in decide

/-- Claim C3, amended: the per-region selection behaves exactly as the claim
describes — whole region when the candidate count is within quota, otherwise the
union of the top `h` scorers (stable descending sort) with
`min(quota - h, remaining)` fixed-stride samples — provided `h` is read as Python's
`int(quota * 0.7)`, which coincides with `⌊0.7·quota⌋` whenever the IEEE double
product does not round below the exact value (it does differ at quota 90, 170,
180, ...). -/
theorem claim_C3_amended (rs : List ℕ) (scores : ℕ → ℚ) (quota : ℕ)
    (h : pyIntMul07 quota = 7 * quota / 10) :
    selectFromRegion rs scores quota = selectFromRegionSpecFloor rs scores quota := by
  simp only [selectFromRegion, selectFromRegionSpecFloor, h]

/-- Witness for C3 (amended) at `quota = 3` (where `int(3*0.7) = 2 = ⌊2.1⌋`). -/
theorem claim_C3_witness :
    selectFromRegion [0] (fun _ => 0) 3 = selectFromRegionSpecFloor [0] (fun _ => 0) 3 :=
  claim_C3_amended [0] (fun _ => 0) 3 (by decide)

/-- Counterexample to claim C8: the empty-`dicomBuffers` failure prints
`{"error": "No DICOM buffers provided"}` (line 196) with no `success` key at all, so
not every failure output carries `"success": false`. -/
theorem claim_C8_counterexample :
    (main_model (Except.ok ([], 200))).1.success = none
  ∧ (main_model (Except.ok ([], 200))).1.success ≠ some false
  ∧ (main_model (Except.ok ([], 200))).2 = 1 :=
  ⟨rfl, by decide, rfl⟩

/-- Claim C8, amended: every failure path exits with code 1 and an `error` string,
and never claims success; the generic exception handler (line 213) does include
`"success": false`, but the empty-buffers branch (line 196) omits the `success` key;
every success output carries `"success": true` and a `selectedIndices` list. -/
theorem claim_C8_amended (inp : Except String (List (Option SliceInfo) × ℕ)) :
    ((main_model inp).2 = 1 → (main_model inp).1.error ≠ none
        ∧ (main_model inp).1.success ≠ some true)
  ∧ ((main_model inp).2 = 0 → (main_model inp).1.success = some true
        ∧ (main_model inp).1.selectedIndices ≠ none)
  ∧ (∀ msg, inp = Except.error msg → (main_model inp).1.success = some false
        ∧ (main_model inp).2 = 1)
  ∧ (∀ T : ℕ, inp = Except.ok ([], T) → (main_model inp).1.error ≠ none
        ∧ (main_model inp).2 = 1) := by
  rcases inp with msg | ⟨bufs, T⟩
  · simp [main_model]
  · by_cases hemp : bufs.isEmpty
    · simp [main_model, hemp]
    · simp [main_model, hemp]
      intro hb
      rw [hb] at hemp
      simp at hemp

/-- Witness for C8 (amended): a one-slice success run reports `success = true` with
a `selectedIndices` list, at exit code 0. -/
theorem claim_C8_witness :
    (main_model (Except.ok ([some ⟨true, 0⟩], 3))).1.success = some true
  ∧ (main_model (Except.ok ([some ⟨true, 0⟩], 3))).1.selectedIndices ≠ none :=
  (claim_C8_amended (Except.ok ([some ⟨true, 0⟩], 3))).2.1 rfl

/-- Counterexample to claim C9: the uniform-stride set does not have
`quota - floor(quota*0.7)` elements at every quota.  At `quota = 90` (91 candidates,
increasing scores) the code's uniform sample has `90 - int(90*0.7) = 28` elements,
not `90 - ⌊0.7·90⌋ = 27`. -/
theorem claim_C9_counterexample :
    (uniformSlices (remainingOf (List.range 91)
        (highVarSlices (List.range 91) (fun i => (i : ℚ)) (pyIntMul07 90)))
        (90 - pyIntMul07 90)).length ≠ 90 - 7 * 90 / 10
  ∧ (uniformSlices (remainingOf (List.range 91)
        (highVarSlices (List.range 91) (fun i => (i : ℚ)) (pyIntMul07 90)))
        (90 - pyIntMul07 90)).length = 28 := by
  set_option maxRecDepth 100000 in
  have h : (uniformSlices (remainingOf (List.range 91)
      (highVarSlices (List.range 91) (fun i => (i : ℚ)) (pyIntMul07 90)))
      (90 - pyIntMul07 90)).length = 28 := by decide
  exact ⟨by rw [h]; decide, h⟩

/-- Claim C9, amended: on a duplicate-free region whose candidate count strictly
exceeds its quota, the high set and the uniform set are disjoint, the uniform set
has exactly `quota - h` elements with `h = int(quota * 0.7)` (IEEE; equal to
`⌊0.7·quota⌋` except where the double product rounds below, e.g. quota 90), and the
region contributes exactly `quota` distinct slices. -/
theorem claim_C9_amended (rs : List ℕ) (scores : ℕ → ℚ) (quota : ℕ)
    (hnd : rs.Nodup) (hlt : quota < rs.length) :
    (uniformSlices (remainingOf rs (highVarSlices rs scores (pyIntMul07 quota)))
        (quota - pyIntMul07 quota)).length = quota - pyIntMul07 quota
  ∧ (∀ x ∈ uniformSlices (remainingOf rs (highVarSlices rs scores (pyIntMul07 quota)))
        (quota - pyIntMul07 quota), x ∉ highVarSlices rs scores (pyIntMul07 quota))
  ∧ (selectFromRegion rs scores quota).length = quota :=
  region_hybrid_facts rs scores quota hnd hlt

/-- Witness for C9 (amended): 12 candidates, quota 11 — the region contributes
exactly 11 distinct slices. -/
theorem claim_C9_witness :
    (selectFromRegion (List.range 12) (fun _ => 0) 11).length = 11 :=
  (claim_C9_amended (List.range 12) (fun _ => 0) 11 (by decide) (by decide)).2.2

end SliceSelector
